import Mathlib

/-!
A verification development for the buildkite custom scheduler.

The Go sources are shallowly embedded: pure helpers become Lean functions,
the redis-backed job index becomes explicit state passing over a
`RedisState` record, and the HTTP handlers become functions from state and
request data to a response plus a new state.  Go string primitives
(strings.Split, strings.Join, sort.Strings, strings.TrimSpace,
strings.SplitN) are translated at the character-list level so that every
definition evaluates inside the kernel; UTF-8 byte order coincides with
code-point order, so the lexicographic comparison below matches the order
used by sort.Strings.
-/

/-- Lexicographic comparison of character lists, the order used by
sort.Strings (byte order and code-point order agree for UTF-8). -/
def charListLe : List Char → List Char → Bool
  | [], _ => true
  | _ :: _, [] => false
  | a :: as, b :: bs => if a < b then true else if b < a then false else charListLe as bs

/-- String comparison derived from charListLe. -/
def strLe (a b : String) : Prop := charListLe a.toList b.toList = true

instance : DecidableRel strLe := fun a b => by unfold strLe; infer_instance

/-- Translation of sort.Strings: sort a list of strings lexicographically. -/
def sortStrings (rules : List String) : List String :=
  List.insertionSort strLe rules

/-- Translation of strings.Join(xs, ",") at the character level. -/
def joinComma (xs : List String) : String :=
  String.mk (List.intercalate [','] (xs.map String.toList))

/-- Translation of strings.Split(s, ",") at the character level. -/
def splitComma (s : String) : List String :=
  (s.toList.splitOn ',').map String.mk

/-- Translation of strings.TrimSpace (whitespace trimming on both ends). -/
def trimSpace (s : String) : String :=
  String.mk (((s.toList.dropWhile Char.isWhitespace).reverse.dropWhile
    Char.isWhitespace).reverse)

/-- internal/types.Job.  scheduledAt and reservedAt are opaque timestamps. -/
structure Job where
  uuid : String
  queueKey : String
  agentQueryRules : List String
  priority : Int
  scheduledAt : Nat
  reservedAt : Nat
deriving DecidableEq

/-- internal/types.NormalizeQueryRules: empty input yields the empty string,
otherwise the rules are sorted lexicographically and joined with commas. -/
def NormalizeQueryRules (rules : List String) : String :=
  if rules.length = 0 then "" else joinComma (sortStrings rules)

/-- internal/types.ParseQueryRules: the empty string yields the empty list,
otherwise the string is split on commas. -/
def ParseQueryRules (normalized : String) : List String :=
  if normalized = "" then [] else splitComma normalized

/-! Basic facts about the string helpers. -/

theorem string_mk_toList (s : String) : String.mk s.toList = s := by
  cases s
  rfl

theorem charListLe_cons (a b : Char) (as bs : List Char) :
    charListLe (a :: as) (b :: bs) =
      if a < b then true else if b < a then false else charListLe as bs := rfl

theorem charListLe_cons_iff (a b : Char) (as bs : List Char) :
    charListLe (a :: as) (b :: bs) = true ↔
      a < b ∨ (a = b ∧ charListLe as bs = true) := by
  rw [charListLe_cons]
  split_ifs with h1 h2
  · simp [h1]
  · constructor
    · intro h
      exact absurd h (by simp)
    · rintro (h | ⟨rfl, _⟩)
      · exact absurd h h1
      · exact absurd h2 (lt_irrefl a)
  · have hab : a = b := le_antisymm (not_lt.mp h2) (not_lt.mp h1)
    subst hab
    simp [lt_irrefl]

theorem charListLe_total : ∀ as bs : List Char,
    charListLe as bs = true ∨ charListLe bs as = true := by
  intro as
  induction as with
  | nil => intro bs; left; rfl
  | cons a as ih =>
    intro bs
    cases bs with
    | nil => right; rfl
    | cons b bs =>
      rcases lt_trichotomy a b with h | h | h
      · left; rw [charListLe_cons_iff]; exact Or.inl h
      · subst h
        rcases ih bs with h' | h'
        · left; rw [charListLe_cons_iff]; exact Or.inr ⟨rfl, h'⟩
        · right; rw [charListLe_cons_iff]; exact Or.inr ⟨rfl, h'⟩
      · right; rw [charListLe_cons_iff]; exact Or.inl h

theorem charListLe_trans : ∀ as bs cs : List Char,
    charListLe as bs = true → charListLe bs cs = true →
    charListLe as cs = true := by
  intro as
  induction as with
  | nil => intro bs cs _ _; rfl
  | cons a as ih =>
    intro bs cs h1 h2
    cases bs with
    | nil => exact absurd h1 (by simp [charListLe])
    | cons b bs =>
      cases cs with
      | nil => exact absurd h2 (by simp [charListLe])
      | cons c cs =>
        rw [charListLe_cons_iff] at h1 h2 ⊢
        rcases h1 with h1 | ⟨rfl, h1⟩
        · rcases h2 with h2 | ⟨rfl, h2⟩
          · exact Or.inl (lt_trans h1 h2)
          · exact Or.inl h1
        · rcases h2 with h2 | ⟨rfl, h2⟩
          · exact Or.inl h2
          · exact Or.inr ⟨rfl, ih bs cs h1 h2⟩

theorem charListLe_antisymm : ∀ as bs : List Char,
    charListLe as bs = true → charListLe bs as = true → as = bs := by
  intro as
  induction as with
  | nil =>
    intro bs _ h2
    cases bs with
    | nil => rfl
    | cons b bs => exact absurd h2 (by simp [charListLe])
  | cons a as ih =>
    intro bs h1 h2
    cases bs with
    | nil => exact absurd h1 (by simp [charListLe])
    | cons b bs =>
      rw [charListLe_cons_iff] at h1 h2
      rcases h1 with h1 | ⟨rfl, h1⟩
      · rcases h2 with h2 | ⟨rfl, _⟩
        · exact absurd h2 (lt_asymm h1)
        · exact absurd h1 (lt_irrefl _)
      · rcases h2 with h2 | ⟨_, h2⟩
        · exact absurd h2 (lt_irrefl _)
        · rw [ih bs h1 h2]

theorem toList_injective {s t : String} (h : s.toList = t.toList) : s = t := by
  have := congrArg String.mk h
  rwa [string_mk_toList, string_mk_toList] at this

instance : IsTotal String strLe :=
  ⟨fun a b => charListLe_total a.toList b.toList⟩

instance : IsTrans String strLe :=
  ⟨fun a b c => charListLe_trans a.toList b.toList c.toList⟩

instance : IsAntisymm String strLe :=
  ⟨fun a b h1 h2 => toList_injective (charListLe_antisymm a.toList b.toList h1 h2)⟩

theorem sortStrings_perm (rules : List String) :
    List.Perm (sortStrings rules) rules :=
  List.perm_insertionSort strLe rules

theorem sortStrings_eq_of_perm {l₁ l₂ : List String} (h : List.Perm l₁ l₂) :
    sortStrings l₁ = sortStrings l₂ :=
  List.eq_of_perm_of_sorted
    (((sortStrings_perm l₁).trans h).trans (sortStrings_perm l₂).symm)
    (List.sorted_insertionSort strLe l₁)
    (List.sorted_insertionSort strLe l₂)

theorem map_mk_toList (l : List String) :
    (l.map String.toList).map String.mk = l := by
  induction l with
  | nil => rfl
  | cons x xs ih => simp [ih, string_mk_toList]

/-- C4: NormalizeQueryRules is order-independent: any two permutations of a
rule list normalize to the identical string, so set-equal capability sets
(in any order) produce the same capability key. -/
theorem normalize_perm_invariant {l₁ l₂ : List String}
    (h : List.Perm l₁ l₂) :
    NormalizeQueryRules l₁ = NormalizeQueryRules l₂ := by
  unfold NormalizeQueryRules
  rw [h.length_eq, sortStrings_eq_of_perm h]

/-- Witness for C4 at a concrete permutation pair. -/
theorem normalize_perm_invariant_witness :
    List.Perm ["b", "a"] ["a", "b"] ∧
      NormalizeQueryRules ["b", "a"] = NormalizeQueryRules ["a", "b"] :=
  ⟨by decide, normalize_perm_invariant (by decide)⟩

/-- C3 counterexample: on the list consisting of one empty rule string, the
round trip ParseQueryRules after NormalizeQueryRules loses the element, so
the result is not multiset-equal to the input. -/
theorem roundtrip_counterexample :
    ¬ List.Perm (ParseQueryRules (NormalizeQueryRules [""])) [""] := by
  decide

/-- C3 (amended): for every list of rule strings whose elements are nonempty
and free of the separator comma, ParseQueryRules after NormalizeQueryRules
is a permutation (hence multiset-equal) of the input; and normalization of
the empty list is the empty string. -/
theorem parse_normalize_roundtrip (rules : List String)
    (h : ∀ r ∈ rules, r ≠ "" ∧ ',' ∉ r.toList) :
    List.Perm (ParseQueryRules (NormalizeQueryRules rules)) rules ∧
      NormalizeQueryRules [] = "" := by
  refine ⟨?_, rfl⟩
  by_cases hr : rules = []
  · subst hr
    exact List.Perm.nil
  · have hlen : ¬ rules.length = 0 := by
      simpa [List.length_eq_zero] using hr
    have hperm : List.Perm (sortStrings rules) rules := sortStrings_perm rules
    set ls : List (List Char) := (sortStrings rules).map String.toList with hls
    have hmem : ∀ l ∈ ls, ',' ∉ l := by
      intro l hl
      rw [hls, List.mem_map] at hl
      obtain ⟨r, hr', rfl⟩ := hl
      exact (h r (hperm.mem_iff.mp hr')).2
    have hnonempty : ∀ l ∈ ls, l ≠ [] := by
      intro l hl
      rw [hls, List.mem_map] at hl
      obtain ⟨r, hr', rfl⟩ := hl
      intro hnil
      have : r = "" := by
        have := congrArg String.mk hnil
        rwa [string_mk_toList] at this
      exact (h r (hperm.mem_iff.mp hr')).1 this
    have hlsne : ls ≠ [] := by
      rw [hls]
      intro hnil
      have h1 : sortStrings rules = [] := List.map_eq_nil_iff.mp hnil
      have h2 : rules.length = 0 := by
        rw [← hperm.length_eq, h1]
        rfl
      exact hlen h2
    have hsplit : ([','].intercalate ls).splitOn ',' = ls :=
      List.splitOn_intercalate ls ',' hmem hlsne
    have hjoin : NormalizeQueryRules rules = String.mk ([','].intercalate ls) := by
      unfold NormalizeQueryRules joinComma
      rw [if_neg hlen, hls]
    have hne : NormalizeQueryRules rules ≠ "" := by
      rw [hjoin]
      intro heq
      have hL : [','].intercalate ls = [] := by
        have h2 : (String.mk ([','].intercalate ls)).toList = ("" : String).toList :=
          congrArg String.toList heq
        simpa using h2
      have hsingle : ls = [[]] := by
        rw [← hsplit, hL]
        simp [List.splitOn]
      exact hnonempty [] (hsingle ▸ List.mem_singleton.mpr rfl) rfl
    rw [hjoin] at hne ⊢
    unfold ParseQueryRules splitComma
    rw [if_neg hne]
    have htl : (String.mk ([','].intercalate ls)).toList = [','].intercalate ls := rfl
    rw [htl, hsplit, hls, map_mk_toList]
    exact hperm

/-- Witness for C3 at a concrete comma-free input. -/
theorem parse_normalize_roundtrip_witness :
    (∀ r ∈ ["b", "a"], r ≠ "" ∧ ',' ∉ r.toList) ∧
      (List.Perm (ParseQueryRules (NormalizeQueryRules ["b", "a"])) ["b", "a"] ∧
        NormalizeQueryRules [] = "") :=
  ⟨by decide, parse_normalize_roundtrip ["b", "a"] (by decide)⟩

/-!
The job index (internal/storage.RedisStore).  Redis is embedded as explicit
state: lists (the per-capability-key FIFO queues), hashes (the per-job
metadata records, with absent fields modelled as none, matching HSET which
only creates the fields it is given), and the TTLs carried by both key
families.  Store-unreachable transport errors are outside the model; every
operation below is the success path of the corresponding Go method.
-/

inductive Status
  | reserved
  | claimed
  | complete
deriving DecidableEq

/-- The redis hash stored at job:<uuid>.  A field is none when absent. -/
structure MetaHash where
  queue_key : Option String
  query_rules : Option String
  reserved_at : Option Nat
  status : Option Status
deriving DecidableEq

/-- The whole redis keyspace used by the scheduler. -/
structure RedisState where
  lists : String → List Job
  hashes : String → Option MetaHash
  listTTL : String → Option Nat
  hashTTL : String → Option Nat

def emptyRedis : RedisState :=
  ⟨fun _ => [], fun _ => none, fun _ => none, fun _ => none⟩

/-- The queue key jobs:<normalized rules>. -/
def jobsKey (normalized : String) : String := "jobs:" ++ normalized

/-- The metadata key job:<uuid>. -/
def jobKey (uuid : String) : String := "job:" ++ uuid

/-- Pointwise update of a keyed store. -/
def upd {V : Type} (f : String → V) (k : String) (v : V) : String → V :=
  fun q => if q = k then v else f q

theorem upd_self {V : Type} (f : String → V) (k : String) (v : V) :
    upd f k v k = v := by
  simp [upd]

theorem upd_other {V : Type} (f : String → V) (k : String) (v : V)
    {q : String} (h : q ≠ k) : upd f k v q = f q := by
  simp [upd, h]

/-- HSET of the single field status; creates the hash when absent. -/
def hsetStatus (h : Option MetaHash) (st : Status) : MetaHash :=
  match h with
  | none => ⟨none, none, none, some st⟩
  | some m => { m with status := some st }

/-- RedisStore.AddJob: RPUSH the job onto the tail of the queue for its
normalized rules, refresh the queue TTL, HSET the four metadata fields
with status reserved, and refresh the metadata TTL. -/
def AddJob (s : RedisState) (job : Job) : RedisState :=
  let normalizedRules := NormalizeQueryRules job.agentQueryRules
  let key := jobsKey normalizedRules
  let mk := jobKey job.uuid
  { lists := upd s.lists key (s.lists key ++ [job])
    hashes := upd s.hashes mk (some ⟨some job.queueKey, some normalizedRules,
      some job.reservedAt, some Status.reserved⟩)
    listTTL := upd s.listTTL key (some 3600)
    hashTTL := upd s.hashTTL mk (some 3600) }

/-- RedisStore.ClaimJob: a single atomic LPOP of the head of the queue for
the normalized rules (nil result when the key is empty or absent is not an
error), then HSET the popped job status to claimed. -/
def ClaimJob (s : RedisState) (queryRules : List String) : Option Job × RedisState :=
  let key := jobsKey (NormalizeQueryRules queryRules)
  match s.lists key with
  | [] => (none, s)
  | job :: rest =>
    let mk := jobKey job.uuid
    (some job,
      { s with
        lists := upd s.lists key rest
        hashes := upd s.hashes mk (some (hsetStatus (s.hashes mk) Status.claimed)) })

/-- RedisStore.CompleteJob: HSET the status field to complete; no existence
check, no TTL touched. -/
def CompleteJob (s : RedisState) (uuid : String) : RedisState :=
  let mk := jobKey uuid
  { s with hashes := upd s.hashes mk (some (hsetStatus (s.hashes mk) Status.complete)) }

/-- Redis TTL expiry of a metadata key: a key disappears only when it
carries a TTL; a key without TTL persists forever. -/
def expireHash (s : RedisState) (k : String) : RedisState :=
  if (s.hashTTL k).isSome then
    { s with hashes := upd s.hashes k none, hashTTL := upd s.hashTTL k none }
  else s

/-- The status field recorded for a job uuid, if any. -/
def statusOf (s : RedisState) (uuid : String) : Option Status :=
  (s.hashes (jobKey uuid)).bind MetaHash.status

theorem append_left_cancel_string {p a b : String}
    (h : p ++ a = p ++ b) : a = b := by
  apply toList_injective
  have hdata : (p ++ a).toList = (p ++ b).toList := congrArg String.toList h
  have hl : p.toList ++ a.toList = p.toList ++ b.toList := by
    simpa [String.toList] using hdata
  exact List.append_cancel_left hl

theorem jobKey_inj {a b : String} (h : jobKey a = jobKey b) : a = b :=
  append_left_cancel_string h

/-! Claim runs.  ClaimJob removes and returns the queue head with one atomic
LPOP, so a concurrent execution of n claims against one key linearizes to a
sequence of these atomic steps; runClaims ranges over such sequences. -/

def runClaims (s : RedisState) (q : List String) : Nat → List (Option Job) × RedisState
  | 0 => ([], s)
  | n + 1 =>
    let r := ClaimJob s q
    let rest := runClaims r.2 q n
    (r.1 :: rest.1, rest.2)

theorem ClaimJob_empty {s : RedisState} {q : List String}
    (h : s.lists (jobsKey (NormalizeQueryRules q)) = []) :
    ClaimJob s q = (none, s) := by
  simp [ClaimJob, h]

theorem runClaims_empty {s : RedisState} {q : List String}
    (h : s.lists (jobsKey (NormalizeQueryRules q)) = []) :
    ∀ n, runClaims s q n = (List.replicate n none, s) := by
  intro n
  induction n with
  | zero => rfl
  | succ n ih => simp [runClaims, ClaimJob_empty h, ih, List.replicate_succ]

theorem filter_isSome_replicate_none (m : Nat) :
    (List.replicate m (none : Option Job)).filter (fun r => r.isSome) = [] := by
  induction m with
  | zero => rfl
  | succ m ih => simp [List.replicate_succ, ih]

/-- C1: at-most-once delivery per capability key.  When the queue of a key
holds exactly one job, any sequence of n atomic claims on that key (the
linearization of n concurrent claims, since the remove-and-return is one
atomic LPOP) delivers the job to exactly one caller; the other n - 1 get
the no-job answer. -/
theorem claim_at_most_once (s : RedisState) (q : List String) (j : Job) (n : Nat)
    (hq : s.lists (jobsKey (NormalizeQueryRules q)) = [j]) (hn : 1 ≤ n) :
    (runClaims s q n).1.filter (fun r => r.isSome) = [some j] ∧
      (runClaims s q n).1.length = n := by
  obtain ⟨m, rfl⟩ : ∃ m, n = m + 1 :=
    ⟨n - 1, (Nat.succ_pred_eq_of_pos hn).symm⟩
  have h1 : (ClaimJob s q).1 = some j := by
    simp [ClaimJob, hq]
  have h2 : (ClaimJob s q).2.lists (jobsKey (NormalizeQueryRules q)) = [] := by
    simp [ClaimJob, hq, upd_self]
  simp only [runClaims]
  rw [runClaims_empty h2 m]
  simp [h1, filter_isSome_replicate_none]

def jobC1 : Job := ⟨"c1-job", "default", ["os=linux"], 0, 0, 0⟩

/-- Witness for C1: three claims against a key holding one job. -/
theorem claim_at_most_once_witness :
    (AddJob emptyRedis jobC1).lists (jobsKey (NormalizeQueryRules ["os=linux"])) = [jobC1] ∧
      1 ≤ 3 ∧
      ((runClaims (AddJob emptyRedis jobC1) ["os=linux"] 3).1.filter
          (fun r => r.isSome) = [some jobC1] ∧
        (runClaims (AddJob emptyRedis jobC1) ["os=linux"] 3).1.length = 3) :=
  ⟨by decide, by decide,
    claim_at_most_once (AddJob emptyRedis jobC1) ["os=linux"] jobC1 3
      (by decide) (by decide)⟩

theorem AddJob_lists (s : RedisState) (j : Job) :
    (AddJob s j).lists = upd s.lists (jobsKey (NormalizeQueryRules j.agentQueryRules))
      (s.lists (jobsKey (NormalizeQueryRules j.agentQueryRules)) ++ [j]) := rfl

theorem AddJob_hashes (s : RedisState) (j : Job) :
    (AddJob s j).hashes = upd s.hashes (jobKey j.uuid)
      (some ⟨some j.queueKey, some (NormalizeQueryRules j.agentQueryRules),
        some j.reservedAt, some Status.reserved⟩) := rfl

theorem ClaimJob_cons {s : RedisState} {q : List String} {j : Job} {rest : List Job}
    (h : s.lists (jobsKey (NormalizeQueryRules q)) = j :: rest) :
    ClaimJob s q = (some j,
      { s with
        lists := upd s.lists (jobsKey (NormalizeQueryRules q)) rest
        hashes := upd s.hashes (jobKey j.uuid)
          (some (hsetStatus (s.hashes (jobKey j.uuid)) Status.claimed)) }) := by
  simp [ClaimJob, h]

/-- C2: FIFO per capability key.  Inserting jA then jB under the same key
into a state where that key is empty, then claiming twice with a query
normalizing to the same key, returns jA first and jB second. -/
theorem claim_fifo (s : RedisState) (jA jB : Job) (q : List String)
    (hB : NormalizeQueryRules jB.agentQueryRules = NormalizeQueryRules jA.agentQueryRules)
    (hq : NormalizeQueryRules q = NormalizeQueryRules jA.agentQueryRules)
    (hempty : s.lists (jobsKey (NormalizeQueryRules jA.agentQueryRules)) = []) :
    (ClaimJob (AddJob (AddJob s jA) jB) q).1 = some jA ∧
      (ClaimJob (ClaimJob (AddJob (AddJob s jA) jB) q).2 q).1 = some jB := by
  have l1 : (AddJob s jA).lists (jobsKey (NormalizeQueryRules jA.agentQueryRules)) = [jA] := by
    rw [AddJob_lists, upd_self, hempty]
    rfl
  have l2 : (AddJob (AddJob s jA) jB).lists
      (jobsKey (NormalizeQueryRules jA.agentQueryRules)) = [jA, jB] := by
    rw [AddJob_lists, hB, upd_self, l1]
    rfl
  have hcons1 : (AddJob (AddJob s jA) jB).lists (jobsKey (NormalizeQueryRules q)) =
      jA :: [jB] := by
    rw [hq]
    exact l2
  have hcons2 : (ClaimJob (AddJob (AddJob s jA) jB) q).2.lists
      (jobsKey (NormalizeQueryRules q)) = jB :: [] := by
    rw [ClaimJob_cons hcons1]
    exact upd_self _ _ _
  constructor
  · rw [ClaimJob_cons hcons1]
  · rw [ClaimJob_cons hcons2]

def jobA : Job := ⟨"job-a", "default", ["x=1"], 0, 0, 0⟩

def jobB : Job := ⟨"job-b", "default", ["x=1"], 0, 0, 0⟩

/-- Witness for C2 at two concrete jobs under one key. -/
theorem claim_fifo_witness :
    NormalizeQueryRules jobB.agentQueryRules = NormalizeQueryRules jobA.agentQueryRules ∧
      NormalizeQueryRules ["x=1"] = NormalizeQueryRules jobA.agentQueryRules ∧
      emptyRedis.lists (jobsKey (NormalizeQueryRules jobA.agentQueryRules)) = [] ∧
      ((ClaimJob (AddJob (AddJob emptyRedis jobA) jobB) ["x=1"]).1 = some jobA ∧
        (ClaimJob (ClaimJob (AddJob (AddJob emptyRedis jobA) jobB) ["x=1"]).2 ["x=1"]).1 =
          some jobB) :=
  ⟨by decide, by decide, by decide,
    claim_fifo emptyRedis jobA jobB ["x=1"] (by decide) (by decide) (by decide)⟩

/-- C6 counterexample: completing a job id whose metadata record is absent
(expired or never inserted) does not leave the store unchanged; a fresh
record is created for that id. -/
theorem complete_expired_counterexample :
    (CompleteJob emptyRedis "gone").hashes (jobKey "gone") ≠
      emptyRedis.hashes (jobKey "gone") := by
  decide

/-- C6 (amended): completing a job id whose metadata record has already
expired is error-free and returns success, but rather than leaving the
store unchanged it creates a metadata record for that id holding only
status complete; every other key, every queue and every TTL entry is
untouched. -/
theorem complete_on_expired (s : RedisState) (u : String)
    (h : s.hashes (jobKey u) = none) :
    (CompleteJob s u).hashes (jobKey u) =
        some ⟨none, none, none, some Status.complete⟩ ∧
      (∀ k, k ≠ jobKey u → (CompleteJob s u).hashes k = s.hashes k) ∧
      (CompleteJob s u).lists = s.lists ∧
      (CompleteJob s u).listTTL = s.listTTL ∧
      (CompleteJob s u).hashTTL = s.hashTTL := by
  refine ⟨?_, ?_, rfl, rfl, rfl⟩
  · show upd s.hashes (jobKey u) (some (hsetStatus (s.hashes (jobKey u))
      Status.complete)) (jobKey u) = _
    rw [upd_self, h]
    rfl
  · intro k hk
    exact upd_other _ _ _ hk

/-- Witness for C6 at the empty store. -/
theorem complete_on_expired_witness :
    emptyRedis.hashes (jobKey "gone") = none ∧
      ((CompleteJob emptyRedis "gone").hashes (jobKey "gone") =
          some ⟨none, none, none, some Status.complete⟩ ∧
        (∀ k, k ≠ jobKey "gone" →
          (CompleteJob emptyRedis "gone").hashes k = emptyRedis.hashes k) ∧
        (CompleteJob emptyRedis "gone").lists = emptyRedis.lists ∧
        (CompleteJob emptyRedis "gone").listTTL = emptyRedis.listTTL ∧
        (CompleteJob emptyRedis "gone").hashTTL = emptyRedis.hashTTL) :=
  ⟨rfl, complete_on_expired emptyRedis "gone" rfl⟩

theorem foldl_expireHash_no_ttl (ks : List String) :
    ∀ s : RedisState, ∀ k, s.hashTTL k = none →
      (ks.foldl expireHash s).hashes k = s.hashes k ∧
        (ks.foldl expireHash s).hashTTL k = none := by
  induction ks with
  | nil => exact fun s k h => ⟨rfl, h⟩
  | cons k2 ks ih =>
    intro s k h
    have hstep : (expireHash s k2).hashes k = s.hashes k ∧
        (expireHash s k2).hashTTL k = none := by
      unfold expireHash
      split_ifs with httl
      · by_cases hkk : k = k2
        · subst hkk
          rw [h] at httl
          simp at httl
        · exact ⟨upd_other _ _ _ hkk, (upd_other s.hashTTL k2 none hkk).trans h⟩
      · exact ⟨rfl, h⟩
    have hrest := ih (expireHash s k2) k hstep.2
    simp only [List.foldl_cons]
    exact ⟨hrest.1.trans hstep.1, hrest.2⟩

/-- C10: CompleteJob succeeds for every job id (transport errors aside),
including an id never inserted or whose metadata expired; it then creates a
fresh record holding only the field status complete, carrying no TTL, and
no sequence of TTL expiries ever removes that record. -/
theorem complete_creates_persistent_record (s : RedisState) (u : String)
    (h : s.hashes (jobKey u) = none) (ht : s.hashTTL (jobKey u) = none) :
    (CompleteJob s u).hashes (jobKey u) =
        some ⟨none, none, none, some Status.complete⟩ ∧
      (CompleteJob s u).hashTTL (jobKey u) = none ∧
      ∀ ks : List String, (ks.foldl expireHash (CompleteJob s u)).hashes (jobKey u) =
        some ⟨none, none, none, some Status.complete⟩ := by
  have h1 : (CompleteJob s u).hashes (jobKey u) =
      some ⟨none, none, none, some Status.complete⟩ := by
    show upd s.hashes (jobKey u) (some (hsetStatus (s.hashes (jobKey u))
      Status.complete)) (jobKey u) = _
    rw [upd_self, h]
    rfl
  have h2 : (CompleteJob s u).hashTTL (jobKey u) = none := ht
  exact ⟨h1, h2, fun ks =>
    ((foldl_expireHash_no_ttl ks (CompleteJob s u) (jobKey u) h2).1).trans h1⟩

/-- Witness for C10 at the empty store. -/
theorem complete_creates_persistent_record_witness :
    emptyRedis.hashes (jobKey "never") = none ∧
      emptyRedis.hashTTL (jobKey "never") = none ∧
      ((CompleteJob emptyRedis "never").hashes (jobKey "never") =
          some ⟨none, none, none, some Status.complete⟩ ∧
        (CompleteJob emptyRedis "never").hashTTL (jobKey "never") = none ∧
        ∀ ks : List String,
          (ks.foldl expireHash (CompleteJob emptyRedis "never")).hashes (jobKey "never") =
            some ⟨none, none, none, some Status.complete⟩) :=
  ⟨rfl, rfl, complete_creates_persistent_record emptyRedis "never" rfl rfl⟩

/-!
The matching API (internal/server.API).  Each handler becomes a function
from the store state plus the request datum to a response classification
and the new store state.  The 500 path (store unreachable) is outside the
model, as transport is not embedded; the logging and the worker id header
have no effect on state or response and are omitted.
-/

inductive GetJobResponse
  | badRequest
  | noContent
  | ok (job : Job)
deriving DecidableEq

inductive CompleteResponse
  | badRequest
  | okDone
deriving DecidableEq

/-- API.handleGetJob: a missing or empty query parameter is rejected with
400 before touching the store; otherwise the parameter is split on commas,
each rule is trimmed, and ClaimJob is consulted: nil yields 204, a job
yields 200 with the job body. -/
def handleGetJob (s : RedisState) (queryParam : String) : GetJobResponse × RedisState :=
  if queryParam = "" then (GetJobResponse.badRequest, s)
  else
    let queryRules := (splitComma queryParam).map trimSpace
    match ClaimJob s queryRules with
    | (none, s2) => (GetJobResponse.noContent, s2)
    | (some job, s2) => (GetJobResponse.ok job, s2)

/-- API.handleCompleteJob: an empty uuid path value is rejected with 400
before touching the store; otherwise CompleteJob runs and 200 is
returned. -/
def handleCompleteJob (s : RedisState) (uuid : String) : CompleteResponse × RedisState :=
  if uuid = "" then (CompleteResponse.badRequest, s)
  else (CompleteResponse.okDone, CompleteJob s uuid)

def jobC8 : Job := ⟨"c8-job", "default", ["", ""], 0, 0, 0⟩

/-- C8 counterexample: the claim request with raw query a single comma
carries no non-empty rule string, yet it is not rejected; it reaches the
store, claims a job queued under the key of two empty rules, and removes
it from the index. -/
theorem api_validation_counterexample :
    (handleGetJob (AddJob emptyRedis jobC8) ",").1 = GetJobResponse.ok jobC8 ∧
      GetJobResponse.ok jobC8 ≠ GetJobResponse.badRequest ∧
      (handleGetJob (AddJob emptyRedis jobC8) ",").2.lists (jobsKey ",") = [] := by
  decide

/-- C8 (amended): the API validates only emptiness before touching the
store: a claim request is rejected with 400 exactly when the raw query
parameter is the empty string (also how a missing parameter arrives), a
completion request is rejected exactly when the id path value is empty,
and a rejected request leaves the store untouched.  A non-empty query
whose rules are all empty strings is not rejected. -/
theorem api_validates_only_emptiness (s : RedisState) (q u : String) :
    ((handleGetJob s q).1 = GetJobResponse.badRequest ↔ q = "") ∧
      (q = "" → (handleGetJob s q).2 = s) ∧
      ((handleCompleteJob s u).1 = CompleteResponse.badRequest ↔ u = "") ∧
      (u = "" → (handleCompleteJob s u).2 = s) := by
  refine ⟨⟨?_, ?_⟩, ?_, ⟨?_, ?_⟩, ?_⟩
  · intro hbad
    by_contra hq
    rcases hc : ClaimJob s ((splitComma q).map trimSpace) with ⟨r, s2⟩
    cases r <;> simp [handleGetJob, hq, hc] at hbad
  · intro hq
    simp [handleGetJob, hq]
  · intro hq
    simp [handleGetJob, hq]
  · intro hbad
    by_contra hu
    simp [handleCompleteJob, hu] at hbad
  · intro hu
    simp [handleCompleteJob, hu]
  · intro hu
    simp [handleCompleteJob, hu]

/-- Witness for C8 at the empty store and empty request data. -/
theorem api_validates_only_emptiness_witness :
    ((handleGetJob emptyRedis "").1 = GetJobResponse.badRequest ↔ ("" : String) = "") ∧
      (("" : String) = "" → (handleGetJob emptyRedis "").2 = emptyRedis) ∧
      ((handleCompleteJob emptyRedis "").1 = CompleteResponse.badRequest ↔
        ("" : String) = "") ∧
      (("" : String) = "" → (handleCompleteJob emptyRedis "").2 = emptyRedis) :=
  api_validates_only_emptiness emptyRedis "" ""

/-- C9: a claim with a non-empty query whose capability key holds no queued
job (absent key, or a rule set matching nothing in a populated index)
returns the 204 no-content answer, never an error, and leaves the store
unchanged. -/
theorem claim_no_match_no_error (s : RedisState) (q : String) (hq : q ≠ "")
    (hempty : s.lists
      (jobsKey (NormalizeQueryRules ((splitComma q).map trimSpace))) = []) :
    handleGetJob s q = (GetJobResponse.noContent, s) := by
  have hc : ClaimJob s ((splitComma q).map trimSpace) = (none, s) :=
    ClaimJob_empty hempty
  simp [handleGetJob, hq, hc]

def jobC9 : Job := ⟨"c9-job", "default", ["queue=default"], 0, 0, 0⟩

/-- Witness for C9: a rule matching nothing, against a populated index. -/
theorem claim_no_match_no_error_witness :
    ("nonexistent=rule" : String) ≠ "" ∧
      (AddJob emptyRedis jobC9).lists
        (jobsKey (NormalizeQueryRules
          ((splitComma "nonexistent=rule").map trimSpace))) = [] ∧
      handleGetJob (AddJob emptyRedis jobC9) "nonexistent=rule" =
        (GetJobResponse.noContent, AddJob emptyRedis jobC9) :=
  ⟨by decide, by decide,
    claim_no_match_no_error (AddJob emptyRedis jobC9) "nonexistent=rule"
      (by decide) (by decide)⟩

/-!
Status lifecycle (C5).  The three store operations as a small operation
language, with the status rank ordering none < reserved < claimed <
complete.
-/

inductive Op
  | add (job : Job)
  | claim (queryRules : List String)
  | complete (uuid : String)

def applyOp (s : RedisState) : Op → RedisState
  | Op.add j => AddJob s j
  | Op.claim q => (ClaimJob s q).2
  | Op.complete u => CompleteJob s u

def applyOps (s : RedisState) (ops : List Op) : RedisState :=
  ops.foldl applyOp s

def statusRank : Option Status → Nat
  | none => 0
  | some Status.reserved => 1
  | some Status.claimed => 2
  | some Status.complete => 3

/-- The lifecycle side conditions under which a step cannot regress the
status of the id u: an AddJob carrying uuid u only runs while u is absent
or reserved, and a claim whose queue head carries uuid u only runs while
u is not yet complete.  CompleteJob is unconditional. -/
def stepOkB (u : String) (s : RedisState) : Op → Bool
  | Op.add j =>
    if j.uuid = u then (if statusRank (statusOf s u) ≤ 1 then true else false)
    else true
  | Op.claim q =>
    match s.lists (jobsKey (NormalizeQueryRules q)) with
    | [] => true
    | j :: _ =>
      if j.uuid = u then
        (if statusOf s u = some Status.complete then false else true)
      else true
  | Op.complete _ => true

def stepsOkB (u : String) : RedisState → List Op → Bool
  | _, [] => true
  | s, op :: rest => stepOkB u s op && stepsOkB u (applyOp s op) rest

theorem CompleteJob_hashes (s : RedisState) (u : String) :
    (CompleteJob s u).hashes = upd s.hashes (jobKey u)
      (some (hsetStatus (s.hashes (jobKey u)) Status.complete)) := rfl

theorem hsetStatus_status (h : Option MetaHash) (st : Status) :
    (hsetStatus h st).status = some st := by
  cases h <;> rfl

theorem statusRank_le_three (x : Option Status) : statusRank x ≤ 3 := by
  rcases x with _ | st
  · decide
  · cases st <;> decide

theorem statusRank_le_two_of_ne {x : Option Status}
    (h : x ≠ some Status.complete) : statusRank x ≤ 2 := by
  rcases x with _ | st
  · decide
  · cases st
    · decide
    · decide
    · exact absurd rfl h

theorem statusOf_AddJob_self (s : RedisState) (j : Job) :
    statusOf (AddJob s j) j.uuid = some Status.reserved := by
  simp [statusOf, AddJob_hashes, upd_self]

theorem statusOf_AddJob_other (s : RedisState) (j : Job) (u : String)
    (h : j.uuid ≠ u) : statusOf (AddJob s j) u = statusOf s u := by
  simp [statusOf, AddJob_hashes, upd_other _ _ _ (fun hk => h (jobKey_inj hk).symm)]

theorem statusOf_CompleteJob_self (s : RedisState) (u : String) :
    statusOf (CompleteJob s u) u = some Status.complete := by
  simp [statusOf, CompleteJob_hashes, upd_self, hsetStatus_status]

theorem statusOf_CompleteJob_other (s : RedisState) (u2 u : String)
    (h : u2 ≠ u) : statusOf (CompleteJob s u2) u = statusOf s u := by
  simp [statusOf, CompleteJob_hashes,
    upd_other _ _ _ (fun hk => h (jobKey_inj hk).symm)]

theorem statusOf_ClaimJob_self {s : RedisState} {q : List String} {j : Job}
    {rest : List Job}
    (hl : s.lists (jobsKey (NormalizeQueryRules q)) = j :: rest) :
    statusOf (ClaimJob s q).2 j.uuid = some Status.claimed := by
  simp [statusOf, ClaimJob_cons hl, upd_self, hsetStatus_status]

theorem statusOf_ClaimJob_other {s : RedisState} {q : List String} {j : Job}
    {rest : List Job}
    (hl : s.lists (jobsKey (NormalizeQueryRules q)) = j :: rest)
    (u : String) (hj : j.uuid ≠ u) :
    statusOf (ClaimJob s q).2 u = statusOf s u := by
  simp [statusOf, ClaimJob_cons hl,
    upd_other _ _ _ (fun hk => hj (jobKey_inj hk).symm)]

theorem stepOk_mono (u : String) (s : RedisState) (op : Op)
    (h : stepOkB u s op = true) :
    statusRank (statusOf s u) ≤ statusRank (statusOf (applyOp s op) u) := by
  cases op with
  | add j =>
    show _ ≤ statusRank (statusOf (AddJob s j) u)
    by_cases hj : j.uuid = u
    · subst hj
      rw [statusOf_AddJob_self]
      simp only [stepOkB] at h
      rw [if_true] at h
      by_cases hr : statusRank (statusOf s j.uuid) ≤ 1
      · exact hr
      · rw [if_neg hr] at h
        simp at h
    · rw [statusOf_AddJob_other s j u hj]
  | claim q =>
    show _ ≤ statusRank (statusOf (ClaimJob s q).2 u)
    rcases hl : s.lists (jobsKey (NormalizeQueryRules q)) with _ | ⟨j, rest⟩
    · rw [ClaimJob_empty hl]
    · by_cases hj : j.uuid = u
      · subst hj
        rw [statusOf_ClaimJob_self hl]
        simp only [stepOkB, hl] at h
        rw [if_true] at h
        by_cases hc : statusOf s j.uuid = some Status.complete
        · rw [if_pos hc] at h
          simp at h
        · exact statusRank_le_two_of_ne hc
      · rw [statusOf_ClaimJob_other hl u hj]
  | complete u2 =>
    show _ ≤ statusRank (statusOf (CompleteJob s u2) u)
    by_cases hj : u2 = u
    · subst hj
      rw [statusOf_CompleteJob_self]
      exact statusRank_le_three _
    · rw [statusOf_CompleteJob_other s u2 u hj]

/-- C5 (amended): the status of a job id is monotonic over the closed set
none < reserved < claimed < complete for every operation sequence obeying
the documented lifecycle: AddJob re-using an id only while it is absent or
reserved, and no claim delivering an id after it was already completed.
Outside those conditions the code can regress the status (see the
counterexample). -/
theorem status_monotonic (u : String) (s : RedisState) (ops : List Op)
    (h : stepsOkB u s ops = true) :
    statusRank (statusOf s u) ≤ statusRank (statusOf (applyOps s ops) u) := by
  induction ops generalizing s with
  | nil => exact le_refl _
  | cons op rest ih =>
    simp only [stepsOkB, Bool.and_eq_true] at h
    exact le_trans (stepOk_mono u s op h.1) (ih (applyOp s op) h.2)

def jobC5 : Job := ⟨"c5-job", "default", ["q=c5"], 0, 0, 0⟩

/-- C5 counterexample: the claim quantifies over every operation sequence,
but calling CompleteJob on a job still queued and then claiming it moves
the status from complete back to claimed, a regression. -/
theorem status_regression_counterexample :
    statusOf (CompleteJob (AddJob emptyRedis jobC5) "c5-job") "c5-job" =
        some Status.complete ∧
      statusOf (ClaimJob (CompleteJob (AddJob emptyRedis jobC5) "c5-job")
          ["q=c5"]).2 "c5-job" = some Status.claimed ∧
      statusRank (some Status.claimed) < statusRank (some Status.complete) := by
  decide

def jobC5w : Job := ⟨"w1", "default", ["q=w"], 0, 0, 0⟩

/-- Witness for C5 on the intended lifecycle add, claim, complete. -/
theorem status_monotonic_witness :
    stepsOkB "w1" emptyRedis
        [Op.add jobC5w, Op.claim ["q=w"], Op.complete "w1"] = true ∧
      statusRank (statusOf emptyRedis "w1") ≤
        statusRank (statusOf (applyOps emptyRedis
          [Op.add jobC5w, Op.claim ["q=w"], Op.complete "w1"]) "w1") :=
  ⟨by decide,
    status_monotonic "w1" emptyRedis
      [Op.add jobC5w, Op.claim ["q=w"], Op.complete "w1"] (by decide)⟩

/-!
The worker tag merge (internal/worker.Runner.normalizeTags).  The Go loop
splits each tag at its first equals sign, skips tags without one, collects
non-queue tags in order, remembers the value of the last queue tag, and
finally appends one queue tag when that remembered value is nonempty.
-/

/-- strings.SplitN(tag, sep, 2) for the one-character separator equals: the
part before the first equals sign and the part after it; none when the tag
has no equals sign (the Go slice then has length one, not two). -/
def splitFirstEq : List Char → Option (List Char × List Char)
  | [] => none
  | c :: cs =>
    if c = '=' then some ([], cs)
    else (splitFirstEq cs).map (fun p => (c :: p.1, p.2))

/-- One iteration of the loop body of normalizeTags over the accumulator
pair of collected result tags and last seen queue value. -/
def tagStep (acc : List String × String) (tag : String) : List String × String :=
  match splitFirstEq tag.toList with
  | none => acc
  | some p =>
    if String.mk p.1 = "queue" then (acc.1, String.mk p.2)
    else (acc.1 ++ [tag], acc.2)

/-- internal/worker.Runner.normalizeTags. -/
def normalizeTags (tags : List String) : String :=
  let acc := tags.foldl tagStep ([], "")
  joinComma (if acc.2 ≠ "" then acc.1 ++ ["queue=" ++ acc.2] else acc.1)

/-- Whether a tag parses as key=value with key queue. -/
def isQueueTag (tag : String) : Bool :=
  match splitFirstEq tag.toList with
  | some p => if String.mk p.1 = "queue" then true else false
  | none => false

/-- Whether a tag parses as key=value with a key other than queue. -/
def keepsTag (tag : String) : Bool :=
  match splitFirstEq tag.toList with
  | some p => if String.mk p.1 = "queue" then false else true
  | none => false

/-- The value part of a key=value tag, empty when there is none. -/
def tagValOf (tag : String) : String :=
  match splitFirstEq tag.toList with
  | some p => String.mk p.2
  | none => ""

/-- The value of the last tag with key queue (the last one wins), or the
fallback when no tag has key queue. -/
def lastQueueVal (fallback : String) (tags : List String) : String :=
  match (tags.filter isQueueTag).getLast? with
  | some t => tagValOf t
  | none => fallback

/-- The tag merge as the spec words it: the keyed non-queue tags verbatim
in input order, followed by one queue tag carrying the last queue value
when that value is nonempty. -/
def specMergeTags (tags : List String) : String :=
  joinComma (tags.filter keepsTag ++
    (if lastQueueVal "" tags ≠ "" then ["queue=" ++ lastQueueVal "" tags] else []))

theorem lastQueueVal_cons (fallback t : String) (ts : List String) :
    lastQueueVal fallback (t :: ts) =
      if isQueueTag t then lastQueueVal (tagValOf t) ts
      else lastQueueVal fallback ts := by
  unfold lastQueueVal
  rw [List.filter_cons]
  by_cases hq : isQueueTag t
  · rw [if_pos hq, if_pos hq]
    cases hf : ts.filter isQueueTag with
    | nil => rfl
    | cons x xs =>
      rw [List.getLast?_cons_cons]
      rcases hgl : (x :: xs).getLast? with _ | y
      · rw [List.getLast?_eq_none_iff] at hgl
        exact (List.cons_ne_nil x xs hgl).elim
      · rfl
  · rw [if_neg hq, if_neg hq]

theorem foldl_tagStep (tags : List String) :
    ∀ res : List String, ∀ lq : String,
      tags.foldl tagStep (res, lq) =
        (res ++ tags.filter keepsTag, lastQueueVal lq tags) := by
  induction tags with
  | nil =>
    intro res lq
    simp [lastQueueVal]
  | cons t ts ih =>
    intro res lq
    simp only [List.foldl_cons]
    rw [lastQueueVal_cons, List.filter_cons]
    cases hsp : splitFirstEq t.data with
    | none =>
      have h1 : tagStep (res, lq) t = (res, lq) := by simp [tagStep, hsp]
      have h2 : keepsTag t = false := by simp [keepsTag, hsp]
      have h3 : isQueueTag t = false := by simp [isQueueTag, hsp]
      rw [h1, ih, h2, h3]
      simp
    | some p =>
      by_cases hk : String.mk p.1 = "queue"
      · have h1 : tagStep (res, lq) t = (res, String.mk p.2) := by
          simp [tagStep, hsp, hk]
        have h2 : keepsTag t = false := by simp [keepsTag, hsp, hk]
        have h3 : isQueueTag t = true := by simp [isQueueTag, hsp, hk]
        have h4 : tagValOf t = String.mk p.2 := by simp [tagValOf, hsp]
        rw [h1, ih, h2, h3, h4]
        simp
      · have h1 : tagStep (res, lq) t = (res ++ [t], lq) := by
          simp [tagStep, hsp, hk]
        have h2 : keepsTag t = true := by simp [keepsTag, hsp, hk]
        have h3 : isQueueTag t = false := by simp [isQueueTag, hsp, hk]
        rw [h1, ih, h2, h3]
        simp

/-- C7 counterexample: on input with queue entries whose last value is
empty, the code emits no queue entry at all (the whole output is empty
here), while the claim demands that the last queue entry win and be
emitted exactly once. -/
theorem tag_merge_counterexample :
    normalizeTags ["queue=x", "queue="] = "" ∧
      ("" : String) ≠ "queue=" ∧ ("" : String) ≠ "queue=x" := by
  decide

/-- C7 (amended): the tag merge equals the spec-shaped merge: every tag of
the form key=value with key other than queue passes through verbatim, in
order, duplicates allowed; among tags with key queue the last one wins and
queue is emitted exactly once provided its value is nonempty, and not at
all when that value is empty; tags without an equals sign are dropped; the
results are joined by commas. -/
theorem normalizeTags_spec (tags : List String) :
    normalizeTags tags = specMergeTags tags := by
  simp only [normalizeTags, specMergeTags, foldl_tagStep tags [] "",
    List.nil_append]
  by_cases h : lastQueueVal "" tags = ""
  · simp [h]
  · simp [h]
